import Mathlib

/-!
Verification development for the Obsidian-Agent knowledge-graph analyzer.

This file gives a shallow embedding of the graph-analyzer subsystem:
* `src/shared/obsidian_parsers.py` — `extract_wikilinks` (the three regexes are
  implemented as direct scanners with `re.finditer` semantics),
* `src/shared/vault_security.py` — `is_path_allowed`, `validate_vault_path`,
* `src/tools/obsidian_graph_analyzer/service.py` — `analyze_graph_service`,
  `_resolve_wikilink` (here `resolve_wikilink`), `MAX_NODES`.

Modelling conventions:
* The filesystem is a finite `Vault`: a list of entries (files with content and
  a read-success flag, or directories), addressed by vault-relative paths.
  `Path.exists()` is membership; reading a directory or a file whose `readOk`
  is false models the exceptions the service catches per node.
* Raised exceptions become `Option`/`Except` `none`/`error`.
* `validate_vault_path` in the source returns the absolute resolved path,
  which is always `root ++ "/" ++ rel`; the model carries the relative part.
* YAML frontmatter parsing (`python-frontmatter`) is an external library; the
  composition `extract_frontmatter_safely` + `get_all_tags` (which never
  raises: the wrapper catches parse errors internally) is modelled by an
  abstract `TagOracle : String → NoteMeta` parameter.
* The BFS loop additionally returns two ghost observations that the source
  does not materialize but that its spec speaks about: the list of dequeue
  events (`trace`) and the queue left over at exit (`rest`).  They influence
  nothing else.
* Candidate paths are compared literally: the model does not replay the
  `pathlib` collapsing of `"//"` and `"/./"` inside user-authored wikilink
  targets, and a `".."` inside a target is not resolved against the real
  filesystem.  Vault entry paths are the clean relative paths an `rglob`
  walk produces.
-/

namespace ObsidianAgent

/-! ## Python string primitives

The model computes on `String.data` with structural (or explicitly fuelled)
list functions, so that every definition evaluates inside the kernel; the
semantics implemented is that of the Python `str` methods the source calls. -/

/-- Python `s.split(sep)` for a one-character separator: the pieces between
occurrences of `sep`, empty pieces kept, `[""]` for the empty string. -/
def splitOnChar (sep : Char) : List Char → List (List Char)
  | [] => [[]]
  | c :: cs =>
    if c == sep then [] :: splitOnChar sep cs
    else
      match splitOnChar sep cs with
      | chunk :: restc => (c :: chunk) :: restc
      | [] => [[c]]

def pySplitOn (s : String) (sep : Char) : List String :=
  (splitOnChar sep s.data).map String.mk

/-- Python `s.replace(pat, repl)`: all occurrences, scanned left to right
without overlap.  Each step consumes at least one input character, so fuel
`≥ length` is never exhausted (`replaceFuelled_congr`). -/
def replaceFuelled (pat repl : List Char) : Nat → List Char → List Char
  | _, [] => []
  | 0, cs => cs
  | fuel + 1, c :: cs =>
    if pat.isPrefixOf (c :: cs) && !pat.isEmpty then
      repl ++ replaceFuelled pat repl fuel ((c :: cs).drop pat.length)
    else c :: replaceFuelled pat repl fuel cs

def pyReplace (s pat repl : String) : String :=
  String.mk (replaceFuelled pat.data repl.data s.data.length s.data)

/-- Python `s.strip()` (over the model's whitespace class). -/
def trimStr (s : String) : String :=
  String.mk (((s.data.dropWhile Char.isWhitespace).reverse.dropWhile Char.isWhitespace).reverse)

/-- Python `s.lower()`. -/
def lowerStr (s : String) : String := String.mk (s.data.map Char.toLower)

def startsWithStr (s pre : String) : Bool := pre.data.isPrefixOf s.data

def endsWithStr (s suf : String) : Bool := suf.data.isSuffixOf s.data

/-- Python `s[n:]` in characters. -/
def dropStr (s : String) (n : Nat) : String := String.mk (s.data.drop n)

/-- Python `s[:n]` in characters. -/
def takeStr (s : String) (n : Nat) : String := String.mk (s.data.take n)

/-- Python `len(s)` in characters. -/
def strLen (s : String) : Nat := s.data.length

/-- Python `sep.join(xs)`. -/
def joinWith (sep : String) (xs : List String) : String :=
  String.mk (List.intercalate sep.data (xs.map (·.data)))

/-- Splitting at every character satisfying `p`, empty pieces kept. -/
def splitPred (p : Char → Bool) : List Char → List (List Char)
  | [] => [[]]
  | c :: cs =>
    if p c then [] :: splitPred p cs
    else
      match splitPred p cs with
      | chunk :: restc => (c :: chunk) :: restc
      | [] => [[c]]

/-- Python `body.split()`: split on whitespace runs, dropping empty pieces. -/
def pySplit (s : String) : List String :=
  ((splitPred Char.isWhitespace s.data).map String.mk).filter (· ≠ "")

/-! ## Path helpers (`pathlib` behaviour) -/

/-- Python `target.split("/")[-1]`. -/
def lastSeg (s : String) : String := (pySplitOn s '/').getLastD ""

/-- Python `Path(p).name`: the last path component. -/
def pathName (p : String) : String := lastSeg p

/-- Index of the last `'.'` in a list of characters, if any. -/
def lastDotIdx (cs : List Char) : Option Nat :=
  ((cs.enum.filter fun ic => ic.2 = '.').map fun ic => ic.1).getLast?

/-- Python `Path(p).suffix`: `name[i:]` for the last dot index `i` when
`0 < i < len(name) - 1`, else `""`. -/
def pathSuffix (p : String) : String :=
  let name := pathName p
  match lastDotIdx name.data with
  | some i => if 0 < i ∧ i < strLen name - 1 then dropStr name i else ""
  | none => ""

/-- Python `Path(p).stem`: `name[:i]` under the same condition, else `name`. -/
def pathStem (p : String) : String :=
  let name := pathName p
  match lastDotIdx name.data with
  | some i => if 0 < i ∧ i < strLen name - 1 then takeStr name i else name
  | none => name

/-! ## `WikiLink` and `extract_wikilinks` (src/shared/obsidian_parsers.py)

`extract_wikilinks` runs three `re.finditer` passes per line:
`EMBED_PATTERN`, then `HEADING_WIKILINK_PATTERN`, then `WIKILINK_PATTERN`.
The scanners below implement exactly the leftmost-match-then-continue-after
semantics of `finditer`; the character classes of the patterns admit no
effective backtracking, so greedy `takeWhile` runs are exact. -/

structure WikiLink where
  target : String
  display_text : Option String := none
  is_embed : Bool
  heading : Option String := none
  line_number : Nat := 0
deriving DecidableEq

/-- One attempt of `WIKILINK_PATTERN` = `\[\[([^\]|]+)(?:\|([^\]]+))?\]\]` at the
head of the input.  Returns `(target chars, display chars?, rest after match)`. -/
def matchWikiAt : List Char → Option (List Char × Option (List Char) × List Char)
  | '[' :: '[' :: rest =>
    let tgt := rest.takeWhile fun c => !(c == ']') && !(c == '|')
    match rest.drop tgt.length with
    | ']' :: ']' :: r => if tgt.isEmpty then none else some (tgt, none, r)
    | '|' :: r =>
      if tgt.isEmpty then none
      else
        let disp := r.takeWhile fun c => !(c == ']')
        match r.drop disp.length with
        | ']' :: ']' :: r2 => if disp.isEmpty then none else some (tgt, some disp, r2)
        | _ => none
    | _ => none
  | _ => none

/-- One attempt of `EMBED_PATTERN` = `!` followed by the wikilink shape. -/
def matchEmbedAt : List Char → Option (List Char × Option (List Char) × List Char)
  | '!' :: rest => matchWikiAt rest
  | _ => none

/-- One attempt of `HEADING_WIKILINK_PATTERN`
= `\[\[([^\]|#]+)#([^\]|]+)(?:\|([^\]]+))?\]\]` at the head of the input. -/
def matchHeadingAt : List Char → Option (List Char × List Char × Option (List Char) × List Char)
  | '[' :: '[' :: rest =>
    let tgt := rest.takeWhile fun c => !(c == ']') && !(c == '|') && !(c == '#')
    match rest.drop tgt.length with
    | '#' :: r =>
      if tgt.isEmpty then none
      else
        let hd := r.takeWhile fun c => !(c == ']') && !(c == '|')
        match r.drop hd.length with
        | ']' :: ']' :: r2 => if hd.isEmpty then none else some (tgt, hd, none, r2)
        | '|' :: r2 =>
          if hd.isEmpty then none
          else
            let disp := r2.takeWhile fun c => !(c == ']')
            match r2.drop disp.length with
            | ']' :: ']' :: r3 => if disp.isEmpty then none else some (tgt, hd, some disp, r3)
            | _ => none
        | _ => none
    | _ => none
  | _ => none

/-- `finditer` pass of `EMBED_PATTERN` over one line.  Each step consumes at
least one character, so fuel `≥ length` is never exhausted
(`scanEmbedsF_congr`). -/
def scanEmbedsF (ln : Nat) : Nat → List Char → List WikiLink
  | _, [] => []
  | 0, _ :: _ => []
  | fuel + 1, c :: cs =>
    match matchEmbedAt (c :: cs) with
    | some (tgt, disp, rest) =>
      { target := trimStr (String.mk tgt),
        display_text := disp.map fun dd => trimStr (String.mk dd),
        is_embed := true, line_number := ln } :: scanEmbedsF ln fuel rest
    | none => scanEmbedsF ln fuel cs

def scanEmbeds (ln : Nat) (cs : List Char) : List WikiLink := scanEmbedsF ln cs.length cs

/-- `finditer` pass of `HEADING_WIKILINK_PATTERN` over one line. -/
def scanHeadingsF (ln : Nat) : Nat → List Char → List WikiLink
  | _, [] => []
  | 0, _ :: _ => []
  | fuel + 1, c :: cs =>
    match matchHeadingAt (c :: cs) with
    | some (tgt, hd, disp, rest) =>
      { target := trimStr (String.mk tgt),
        display_text := disp.map fun dd => trimStr (String.mk dd),
        is_embed := false,
        heading := some (trimStr (String.mk hd)), line_number := ln } ::
          scanHeadingsF ln fuel rest
    | none => scanHeadingsF ln fuel cs

def scanHeadings (ln : Nat) (cs : List Char) : List WikiLink := scanHeadingsF ln cs.length cs

/-- `finditer` pass of `WIKILINK_PATTERN` over one line, with the source's
two skip rules: the character right before the match is `'!'` (part of an
embed), or the whole match contains `'#'` (already captured as a heading
link; the delimiters of the match never contain `'#'`, so this is a check on
the target and display parts).  `prev` is the character just before the
current position. -/
def scanWikisF (ln : Nat) : Nat → Option Char → List Char → List WikiLink
  | _, _, [] => []
  | 0, _, _ :: _ => []
  | fuel + 1, prev, c :: cs =>
    match matchWikiAt (c :: cs) with
    | some (tgt, disp, rest) =>
      if prev == some '!' || tgt.contains '#' ||
          (match disp with | some dd => dd.contains '#' | none => false) then
        scanWikisF ln fuel (some ']') rest
      else
        { target := trimStr (String.mk tgt),
          display_text := disp.map fun dd => trimStr (String.mk dd),
          is_embed := false, line_number := ln } :: scanWikisF ln fuel (some ']') rest
    | none => scanWikisF ln fuel (some c) cs

def scanWikis (ln : Nat) (prev : Option Char) (cs : List Char) : List WikiLink :=
  scanWikisF ln cs.length prev cs

/-- `extract_wikilinks` (src/shared/obsidian_parsers.py:52): per line, embeds
first, then heading links, then plain wikilinks. -/
def extract_wikilinks (content : String) : List WikiLink :=
  ((splitOnChar '\n' content.data).enum.map fun li =>
    scanEmbeds li.1 li.2 ++ scanHeadings li.1 li.2 ++ scanWikis li.1 none li.2).flatten

/-! ## Path policy (src/shared/vault_security.py) -/

def ALLOWED_EXTENSIONS : List String := [".md", ".markdown", ".txt"]

/-- The blocked patterns `".obsidian/**"`, `".git/**"`, `".trash/**"`,
`"node_modules/**"` after `removesuffix("/**")`; each is a single path
component, so the source's contiguous-sublist check over the split path
degenerates to component membership. -/
def BLOCKED_BASES : List String := [".obsidian", ".git", ".trash", "node_modules"]

/-- `is_path_allowed` (src/shared/vault_security.py:109). -/
def is_path_allowed (path : String) : Bool :=
  let sfx := pathSuffix path
  if sfx ≠ "" ∧ lowerStr sfx ∉ ALLOWED_EXTENSIONS then false
  else
    let parts := pySplitOn (pyReplace path "\\" "/") '/'
    if BLOCKED_BASES.any fun b => parts.contains b then false else true

/-! ## The vault filesystem model -/

/-- One filesystem object under the vault root, addressed by its
vault-relative path.  A directory has no readable content; a file with
`readOk = false` models a file whose `open`/`read` raises (the per-node
failure the service catches). -/
structure FsEntry where
  path : String
  isDir : Bool := false
  content : String := ""
  readOk : Bool := true
deriving DecidableEq

/-- The vault: absolute root plus finite filesystem.  The list order of `fs`
is the filesystem scan order (the acknowledged nondeterminism of `rglob`). -/
structure Vault where
  root : String
  fs : List FsEntry

def Vault.paths (v : Vault) : List String := v.fs.map (·.path)

/-- `aiofiles.open(...).read()` at a vault-relative path: fails on missing
entries, directories, and read-failing files. -/
def Vault.readFile (v : Vault) (rel : String) : Option String :=
  match v.fs.find? fun e => e.path == rel with
  | some e => if e.isDir then none else if e.readOk then some e.content else none
  | none => none

/-- `vault_root.rglob("*.md")` in scan order: every entry (file or directory)
whose name ends in `".md"`. -/
def Vault.rglobMd (v : Vault) : List String :=
  (v.fs.filter fun e => endsWithStr (pathName e.path) ".md").map (·.path)

/-- `Path(root) / c` as a string (an absolute candidate replaces the root). -/
def joinAbs (root c : String) : String :=
  if startsWithStr c "/" then c else root ++ "/" ++ c

/-- `(root / c).relative_to(root)`: the vault-relative form of a candidate;
`none` models the `ValueError` for an absolute candidate outside the root. -/
def toRel (root c : String) : Option String :=
  if startsWithStr c "/" then
    if startsWithStr c (root ++ "/") then some (dropStr c (strLen root + 1)) else none
  else some c

/-- `(root / c).exists()`.  The model represents only the vault subtree, so an
absolute candidate outside the root does not exist. -/
def candExists (v : Vault) (c : String) : Bool :=
  match toRel v.root c with
  | some r => decide (r ∈ v.paths)
  | none => false

/-- `validate_vault_path` (src/shared/vault_security.py:45), returning the
vault-relative part of the resolved path (the source returns the absolute
path `root ++ "/" ++ rel`).  `none` models the raised `ValueError` (empty
root) / `SecurityError` (escape from the vault root).  `go` is the `..`/`.`
normalization performed by `Path.resolve`. -/
def normalizeRel (p : String) : Option String :=
  go (pySplitOn p '/') []
where
  go : List String → List String → Option String
    | [], acc => some (joinWith "/" acc.reverse)
    | comp :: restc, acc =>
      if comp = "" ∨ comp = "." then go restc acc
      else if comp = ".." then
        match acc with
        | [] => none
        | _ :: acc' => go restc acc'
      else go restc (comp :: acc)

def validate_vault_path (root req : String) : Option String :=
  if root = "" then none
  else if startsWithStr req "/" then
    if req = root then some ""
    else if startsWithStr req (root ++ "/") then normalizeRel (dropStr req (strLen root + 1))
    else none
  else normalizeRel req

/-! ## `_resolve_wikilink` (src/tools/obsidian_graph_analyzer/service.py:175) -/

def resolve_wikilink (v : Vault) (target : String) : Option String :=
  let targetFilename := lastSeg target
  let candidates := [target ++ ".md", target] ++
    (if targetFilename ≠ "" then [targetFilename ++ ".md"] else [])
  match candidates.findSome? (fun c =>
      if candExists v c && is_path_allowed (joinAbs v.root c) then toRel v.root c
      else none) with
  | some r => some r
  | none =>
    let targetStem := pyReplace targetFilename ".md" ""
    v.rglobMd.find? fun p => pathStem p == targetStem && is_path_allowed (joinAbs v.root p)

/-! ## Schemas (src/tools/obsidian_graph_analyzer/schemas.py)

`response_format` only drives the excluded HTTP formatter and is omitted. -/

structure GraphNode where
  path : String
  title : String
  tags : List String := []
  outbound_links : List String := []
  inbound_links : List String := []
  content_preview : Option String := none
  depth : Nat := 0
deriving DecidableEq

structure GraphAnalysisRequest where
  center_note : String
  depth : Nat := 1
  include_content_preview : Bool := true
  filter_tags : Option (List String) := none

structure GraphAnalysisResponse where
  center_note : String
  nodes : List GraphNode
  total_nodes : Nat
  depth_reached : Nat
  truncated : Bool := false
deriving DecidableEq

/-! ## The tag/frontmatter oracle -/

/-- Joint result of `extract_frontmatter_safely` (body after frontmatter
removal) and `get_all_tags` (frontmatter tags then inline tags, deduplicated),
as a function of the raw note content. -/
structure NoteMeta where
  body : String
  tags : List String

/-- Models the frontmatter pipeline, whose YAML parser is an external
library; the source wrapper catches its errors, so the pipeline is total. -/
abbrev TagOracle := String → NoteMeta

/-! ## `analyze_graph_service` (src/tools/obsidian_graph_analyzer/service.py:28) -/

def MAX_NODES : Nat := 100

/-- The tag-filter skip at service.py:96-98: `request.filter_tags` truthy
(`None` and `[]` are falsy) and no filter tag occurs in the note's tags. -/
def skipByFilter (ft : Option (List String)) (tags : List String) : Bool :=
  match ft with
  | none => false
  | some l => !l.isEmpty && !(l.any fun t => decide (t ∈ tags))

/-- The content preview at service.py:118-123: first 50 whitespace-split
words, with `"..."` appended when the body has more. -/
def mkPreview (incl : Bool) (body : String) : Option String :=
  if incl then
    let ws := pySplit body
    let head50 := joinWith " " (ws.take 50)
    some (if 50 < ws.length then head50 ++ "..." else head50)
  else none

/-- The wikilink loop at service.py:104-111 restricted to its
`outbound_targets` effect: embeds are skipped, each remaining target is
resolved, unresolved links are dropped. -/
def processLinks (v : Vault) (links : List WikiLink) : List String :=
  (links.filter fun l => !l.is_embed).filterMap fun l => resolve_wikilink v l.target

/-- The unvisited part of the paths the BFS can still reach: vault paths plus
the paths waiting in the queue, minus the visited set. -/
def measureSet (v : Vault) (visited : List String) (queue : List (String × Nat)) : Finset String :=
  (v.paths.toFinset ∪ (queue.map Prod.fst).toFinset) \ visited.toFinset

/-! ## The BFS loop -/

/-- Result of the BFS loop of `analyze_graph_service`: the insertion-ordered
`nodes_dict` (Python dicts preserve insertion order), the `visited` set, and
the two ghost observations (dequeue `trace`, leftover queue `rest`). -/
structure LoopOut where
  nodes : List (String × GraphNode)
  visited : List String
  trace : List (String × Nat)
  rest : List (String × Nat)
deriving DecidableEq

/-- Total number of wikilinks across the vault; an upper bound for the
outbound links of any single note, used to size the loop fuel. -/
def linksTotal (v : Vault) : Nat :=
  (v.fs.map fun e => (extract_wikilinks e.content).length).sum

/-- The `while queue and len(nodes_dict) < MAX_NODES` loop of
`analyze_graph_service` (service.py:69-143), written with explicit fuel so
that it computes by structural recursion.  `bfsLoop_isSome` below proves the
fuel used by the service is always sufficient, so the `none` case is
unreachable: the source loop terminates.  Every `continue` of the source is a
tail call on the remaining queue; the per-node `try/except` absorbs
validation errors, missing files and unreadable files as skips. -/
def bfsLoopF (o : TagOracle) (v : Vault) (req : GraphAnalysisRequest) :
    Nat → List (String × GraphNode) → List String → List (String × Nat) → List (String × Nat) →
      Option LoopOut
  | _, nodes, visited, [], trace => some ⟨nodes, visited, trace, []⟩
  | 0, _, _, _ :: _, _ => none
  | fuel + 1, nodes, visited, (cur, d) :: rest, trace =>
    if MAX_NODES ≤ nodes.length then some ⟨nodes, visited, trace, (cur, d) :: rest⟩
    else
      let trace' := trace ++ [(cur, d)]
      if cur ∈ visited then bfsLoopF o v req fuel nodes visited rest trace'
      else if req.depth < d then bfsLoopF o v req fuel nodes visited rest trace'
      else
        match validate_vault_path v.root cur with
        | none => bfsLoopF o v req fuel nodes (cur :: visited) rest trace'
        | some rel =>
          if rel ∈ v.paths then
            match v.readFile rel with
            | none => bfsLoopF o v req fuel nodes (cur :: visited) rest trace'
            | some content =>
              let meta := o content
              if skipByFilter req.filter_tags meta.tags then
                bfsLoopF o v req fuel nodes (cur :: visited) rest trace'
              else
                let outbound := processLinks v (extract_wikilinks content)
                let queue' := rest ++
                  (if d < req.depth then outbound.map fun p => (p, d + 1) else [])
                let node : GraphNode :=
                  { path := cur, title := pathStem (pathName (joinAbs v.root rel)),
                    tags := meta.tags, outbound_links := outbound, inbound_links := [],
                    content_preview := mkPreview req.include_content_preview meta.body,
                    depth := d }
                bfsLoopF o v req fuel (nodes ++ [(cur, node)]) (cur :: visited) queue' trace'
          else bfsLoopF o v req fuel nodes (cur :: visited) rest trace'

/-- The fuel the service runs the loop with: one more than the maximal value
of the potential `|unvisited| * (linksTotal + 1) + |queue|`. -/
def serviceFuel (v : Vault) : Nat := (v.paths.length + 1) * (linksTotal v + 1) + 2

/-- The BFS loop as run by the service. -/
def bfsLoop (o : TagOracle) (v : Vault) (req : GraphAnalysisRequest)
    (nodes : List (String × GraphNode)) (visited : List String)
    (queue : List (String × Nat)) (trace : List (String × Nat)) : Option LoopOut :=
  bfsLoopF o v req (serviceFuel v) nodes visited queue trace

/-- The node built for a processed note. -/
def mkNode (o : TagOracle) (v : Vault) (req : GraphAnalysisRequest)
    (cur rel content : String) (d : Nat) : GraphNode :=
  { path := cur, title := pathStem (pathName (joinAbs v.root rel)),
    tags := (o content).tags,
    outbound_links := processLinks v (extract_wikilinks content),
    inbound_links := [],
    content_preview := mkPreview req.include_content_preview (o content).body,
    depth := d }

/-- The second pass at service.py:145-149: for every node `A` and every
occurrence of an included key `P` in `A.outbound_links`, `A.path` is appended
to node `P`'s `inbound_links` (outer loop in insertion order, inner loop in
outbound order, duplicates kept). -/
def inboundFor (nodes : List (String × GraphNode)) (k : String) : List String :=
  (nodes.map fun an =>
    an.2.outbound_links.filterMap fun p => if p = k then some an.2.path else none).flatten

def buildInbound (nodes : List (String × GraphNode)) : List (String × GraphNode) :=
  nodes.map fun kn => (kn.1, { kn.2 with inbound_links := inboundFor nodes kn.1 })

/-- `analyze_graph_service` plus its two ghost observations: the list of
dequeue events of the BFS loop and the queue left over when the loop exited.
The `Except.error` cases are the propagated `SecurityError`/`ValueError` of
`validate_vault_path` and the `FileNotFoundError` for a missing center note
(service.py:50-55). -/
def analyzeWithTrace (o : TagOracle) (v : Vault) (req : GraphAnalysisRequest) :
    Except String (GraphAnalysisResponse × List (String × Nat) × List (String × Nat)) :=
  match validate_vault_path v.root req.center_note with
  | none => Except.error ("Path validation failed for: " ++ req.center_note)
  | some rel =>
    if rel ∈ v.paths then
      match bfsLoop o v req [] [] [(req.center_note, 0)] [] with
      | some out =>
        let nodesList := (buildInbound out.nodes).map (·.2)
        Except.ok
          ({ center_note := req.center_note,
             nodes := nodesList,
             total_nodes := nodesList.length,
             depth_reached := nodesList.foldl (fun m n => max m n.depth) 0,
             truncated := MAX_NODES ≤ nodesList.length }, out.trace, out.rest)
      -- unreachable: `bfsLoop_isSome` shows the service fuel always suffices
      | none => Except.error "fuel exhausted"
    else Except.error ("Center note not found: " ++ req.center_note)

/-- `analyze_graph_service` (service.py:28): the observable response. -/
def analyze_graph_service (o : TagOracle) (v : Vault) (req : GraphAnalysisRequest) :
    Except String GraphAnalysisResponse :=
  (analyzeWithTrace o v req).map (·.1)

/-- The precondition of the service: the center note validates inside the
vault and exists (service.py:50-55). -/
def centerNoteFound (v : Vault) (req : GraphAnalysisRequest) : Bool :=
  match validate_vault_path v.root req.center_note with
  | some rel => decide (rel ∈ v.paths)
  | none => false

/-- A per-node failure during traversal: the path fails re-validation, the
file does not exist, or it exists but cannot be read (directory/read error).
These are exactly the cases the `try/except` of the loop body absorbs. -/
def noteReadFails (v : Vault) (cur : String) : Prop :=
  match validate_vault_path v.root cur with
  | none => True
  | some rel => rel ∉ v.paths ∨ v.readFile rel = none

/-- The state invariant of the BFS loop: the node map respects the cap,
records for each entry its key, a depth within the requested radius and the
depth of its first dequeue event, its keys are distinct and visited, every
dequeued path is visited, and every queued depth is within the radius. -/
def LoopInv (req : GraphAnalysisRequest) (nodes : List (String × GraphNode))
    (visited : List String) (queue trace : List (String × Nat)) : Prop :=
  nodes.length ≤ MAX_NODES ∧
  (∀ kn ∈ nodes, kn.2.path = kn.1 ∧ kn.2.depth ≤ req.depth ∧
    List.lookup kn.1 trace = some kn.2.depth) ∧
  (nodes.map Prod.fst).Nodup ∧
  (∀ k ∈ nodes.map Prod.fst, k ∈ visited) ∧
  (∀ p ∈ trace.map Prod.fst, p ∈ visited) ∧
  (∀ x ∈ queue, x.2 ≤ req.depth)

/-! ## Concrete fixtures for witnesses and counterexamples -/

/-- The trivial oracle: no frontmatter, no tags. -/
def oracle0 : TagOracle := fun c => { body := c, tags := [] }

def node0 : GraphNode := { path := "", title := "" }

def fallbackTriple : GraphAnalysisResponse × List (String × Nat) × List (String × Nat) :=
  ({ center_note := "", nodes := [], total_nodes := 0, depth_reached := 0 }, [], [])

def vaultEmpty : Vault := ⟨"/v", []⟩

/-- The spec's concrete scenario 1: a center linking to two empty notes. -/
def vaultA : Vault := ⟨"/v",
  [⟨"center.md", false, "Links to [[note1]] and [[note2]]", true⟩,
   ⟨"note1.md", false, "", true⟩,
   ⟨"note2.md", false, "", true⟩]⟩

def reqA : GraphAnalysisRequest := { center_note := "center.md", depth := 1 }

def triA : GraphAnalysisResponse × List (String × Nat) × List (String × Nat) :=
  (analyzeWithTrace oracle0 vaultA reqA).toOption.getD fallbackTriple

def respA : GraphAnalysisResponse := triA.1

def trA : List (String × Nat) := triA.2.1

def restA : List (String × Nat) := triA.2.2

/-- 99 leaf names `n00`..`n98`. -/
def starName (i : Nat) : String :=
  String.mk ['n', Char.ofNat (48 + i / 10), Char.ofNat (48 + i % 10)]

def starContent : String :=
  joinWith "\n" ((List.range 99).map fun i => "[[" ++ starName i ++ "]]")

/-- A star vault with exactly 100 notes, all reachable at depth 1. -/
def starVault : Vault := ⟨"/v", ⟨"c.md", false, starContent, true⟩ ::
  ((List.range 99).map fun i => ⟨starName i ++ ".md", false, "", true⟩)⟩

def starReq : GraphAnalysisRequest := { center_note := "c.md", depth := 1 }

def vaultC6 : Vault := ⟨"/v", [⟨"c.md", false, "", true⟩]⟩

def reqC6 : GraphAnalysisRequest :=
  { center_note := "c.md", depth := 1, filter_tags := some ["t"] }

def vaultC7 : Vault := ⟨"/v",
  [⟨"a.md", false, "![[b#Sec]]", true⟩, ⟨"b.md", false, "", true⟩]⟩

def reqC7 : GraphAnalysisRequest := { center_note := "a.md", depth := 1 }

def vaultC8 : Vault := ⟨"/v", [⟨"ab.md", false, "", true⟩]⟩

def vaultC9 : Vault := ⟨"/v",
  [⟨"a.md", false, "[[b]] [[b]]", true⟩, ⟨"b.md", false, "", true⟩]⟩

def reqC9 : GraphAnalysisRequest := { center_note := "a.md", depth := 1 }

def triC9 : GraphAnalysisResponse × List (String × Nat) × List (String × Nat) :=
  (analyzeWithTrace oracle0 vaultC9 reqC9).toOption.getD fallbackTriple

def respC9 : GraphAnalysisResponse := triC9.1

/-- Resolution exactly as the claim words it: the same candidate order and
policy checks, but step (4) scans for a file whose stem equals the raw last
segment of the target (no removal of `".md"` occurrences). -/
def resolve_wikilink_claim (v : Vault) (target : String) : Option String :=
  let seg := lastSeg target
  let cands := [target ++ ".md", target] ++ (if seg ≠ "" then [seg ++ ".md"] else [])
  match cands.findSome? (fun c =>
      if candExists v c && is_path_allowed (joinAbs v.root c) then toRel v.root c
      else none) with
  | some r => some r
  | none => v.rglobMd.find? fun p => pathStem p == seg && is_path_allowed (joinAbs v.root p)

/-- Resolution as the amended claim words it: candidates `{target}.md`,
`{target}` verbatim, then (when the last segment is nonempty)
`{last segment}.md` — first existing allowed candidate wins — else the first
`*.md` match of the vault scan that passes the path policy and whose stem
equals the target's last segment with every `".md"` occurrence removed. -/
def resolve_wikilink_amended (v : Vault) (target : String) : Option String :=
  let seg := lastSeg target
  let cands := [target ++ ".md", target] ++ (if seg ≠ "" then [seg ++ ".md"] else [])
  match cands.find? (fun c => candExists v c && is_path_allowed (joinAbs v.root c)) with
  | some c => toRel v.root c
  | none =>
    (v.rglobMd.filter fun p => is_path_allowed (joinAbs v.root p)).find? fun p =>
      pathStem p == pyReplace seg ".md" ""

theorem replaceFuelled_congr (pat repl : List Char) :
    ∀ (fuel fuel' : Nat) (cs : List Char), cs.length ≤ fuel → cs.length ≤ fuel' →
      replaceFuelled pat repl fuel cs = replaceFuelled pat repl fuel' cs := by
  intro fuel
  induction fuel with
  | zero =>
    intro fuel' cs h _
    have : cs = [] := List.eq_nil_of_length_eq_zero (Nat.le_zero.mp h)
    subst this
    cases fuel' <;> rfl
  | succ fuel ih =>
    intro fuel' cs h h'
    match cs with
    | [] => cases fuel' <;> rfl
    | c :: cs' =>
      match fuel' with
      | 0 => simp at h'
      | fuel'' + 1 =>
        simp only [List.length_cons] at h h'
        rw [replaceFuelled, replaceFuelled]
        split
        · rename_i hpre
          have hpat : 1 ≤ pat.length := by
            simp only [Bool.and_eq_true] at hpre
            cases pat
            · simp at hpre
            · simp only [List.length_cons]; omega
          have hd : ((c :: cs').drop pat.length).length ≤ cs'.length := by
            simp only [List.length_drop, List.length_cons]
            omega
          rw [ih fuel'' _ (by omega) (by omega)]
        · rw [ih fuel'' _ (by omega) (by omega)]

theorem matchWikiAt_length_lt {cs : List Char} {t : List Char} {d : Option (List Char)}
    {r : List Char} (h : matchWikiAt cs = some (t, d, r)) : r.length < cs.length := by
  unfold matchWikiAt at h
  split at h
  case h_2 => exact absurd h (by simp)
  case h_1 rest =>
    dsimp only at h
    split at h
    case h_1 r1 heq =>
      split at h
      · exact absurd h (by simp)
      · have hlen := congrArg List.length heq
        simp only [List.length_drop, List.length_cons] at hlen
        cases h
        simp only [List.length_cons]
        omega
    case h_2 r1 heq =>
      split at h
      · exact absurd h (by simp)
      · have hlen := congrArg List.length heq
        simp only [List.length_drop, List.length_cons] at hlen
        split at h
        case h_1 r2 heq2 =>
          split at h
          · exact absurd h (by simp)
          · have hlen2 := congrArg List.length heq2
            simp only [List.length_drop, List.length_cons] at hlen2
            cases h
            simp only [List.length_cons]
            omega
        case h_2 => exact absurd h (by simp)
    case h_3 => exact absurd h (by simp)

theorem matchEmbedAt_length_lt {cs : List Char} {t : List Char} {d : Option (List Char)}
    {r : List Char} (h : matchEmbedAt cs = some (t, d, r)) : r.length < cs.length := by
  unfold matchEmbedAt at h
  split at h
  case h_1 rest =>
    have := matchWikiAt_length_lt h
    simp only [List.length_cons]
    omega
  case h_2 => exact absurd h (by simp)

theorem matchHeadingAt_length_lt {cs : List Char} {t h1 : List Char} {d : Option (List Char)}
    {r : List Char} (h : matchHeadingAt cs = some (t, h1, d, r)) : r.length < cs.length := by
  unfold matchHeadingAt at h
  split at h
  case h_2 => exact absurd h (by simp)
  case h_1 rest =>
    dsimp only at h
    split at h
    case h_1 r1 heq =>
      split at h
      · exact absurd h (by simp)
      · have hlen := congrArg List.length heq
        simp only [List.length_drop, List.length_cons] at hlen
        split at h
        case h_1 r2 heq2 =>
          split at h
          · exact absurd h (by simp)
          · have hlen2 := congrArg List.length heq2
            simp only [List.length_drop, List.length_cons] at hlen2
            cases h
            simp only [List.length_cons]
            omega
        case h_2 r2 heq2 =>
          split at h
          · exact absurd h (by simp)
          · have hlen2 := congrArg List.length heq2
            simp only [List.length_drop, List.length_cons] at hlen2
            split at h
            case h_1 r3 heq3 =>
              split at h
              · exact absurd h (by simp)
              · have hlen3 := congrArg List.length heq3
                simp only [List.length_drop, List.length_cons] at hlen3
                cases h
                simp only [List.length_cons]
                omega
            case h_2 => exact absurd h (by simp)
        case h_3 => exact absurd h (by simp)
    case h_2 => exact absurd h (by simp)

theorem scanEmbedsF_congr (ln : Nat) :
    ∀ (fuel fuel' : Nat) (cs : List Char), cs.length ≤ fuel → cs.length ≤ fuel' →
      scanEmbedsF ln fuel cs = scanEmbedsF ln fuel' cs := by
  intro fuel
  induction fuel with
  | zero =>
    intro fuel' cs h _
    have : cs = [] := List.eq_nil_of_length_eq_zero (Nat.le_zero.mp h)
    subst this
    cases fuel' <;> rfl
  | succ fuel ih =>
    intro fuel' cs h h'
    match cs with
    | [] => cases fuel' <;> rfl
    | c :: cs' =>
      match fuel' with
      | 0 => simp at h'
      | fuel'' + 1 =>
        simp only [List.length_cons] at h h'
        rw [scanEmbedsF, scanEmbedsF]
        cases hm : matchEmbedAt (c :: cs') with
        | some r =>
          obtain ⟨tgt, disp, rest⟩ := r
          have hlt := matchEmbedAt_length_lt hm
          simp only [List.length_cons] at hlt
          dsimp only
          rw [ih fuel'' rest (by omega) (by omega)]
        | none =>
          dsimp only
          rw [ih fuel'' cs' (by omega) (by omega)]

theorem scanHeadingsF_congr (ln : Nat) :
    ∀ (fuel fuel' : Nat) (cs : List Char), cs.length ≤ fuel → cs.length ≤ fuel' →
      scanHeadingsF ln fuel cs = scanHeadingsF ln fuel' cs := by
  intro fuel
  induction fuel with
  | zero =>
    intro fuel' cs h _
    have : cs = [] := List.eq_nil_of_length_eq_zero (Nat.le_zero.mp h)
    subst this
    cases fuel' <;> rfl
  | succ fuel ih =>
    intro fuel' cs h h'
    match cs with
    | [] => cases fuel' <;> rfl
    | c :: cs' =>
      match fuel' with
      | 0 => simp at h'
      | fuel'' + 1 =>
        simp only [List.length_cons] at h h'
        rw [scanHeadingsF, scanHeadingsF]
        cases hm : matchHeadingAt (c :: cs') with
        | some r =>
          obtain ⟨tgt, hd, disp, rest⟩ := r
          have hlt := matchHeadingAt_length_lt hm
          simp only [List.length_cons] at hlt
          dsimp only
          rw [ih fuel'' rest (by omega) (by omega)]
        | none =>
          dsimp only
          rw [ih fuel'' cs' (by omega) (by omega)]

theorem scanWikisF_congr (ln : Nat) :
    ∀ (fuel fuel' : Nat) (prev : Option Char) (cs : List Char),
      cs.length ≤ fuel → cs.length ≤ fuel' →
      scanWikisF ln fuel prev cs = scanWikisF ln fuel' prev cs := by
  intro fuel
  induction fuel with
  | zero =>
    intro fuel' prev cs h _
    have : cs = [] := List.eq_nil_of_length_eq_zero (Nat.le_zero.mp h)
    subst this
    cases fuel' <;> rfl
  | succ fuel ih =>
    intro fuel' prev cs h h'
    match cs with
    | [] => cases fuel' <;> rfl
    | c :: cs' =>
      match fuel' with
      | 0 => simp at h'
      | fuel'' + 1 =>
        simp only [List.length_cons] at h h'
        rw [scanWikisF, scanWikisF]
        cases hm : matchWikiAt (c :: cs') with
        | some r =>
          obtain ⟨tgt, disp, rest⟩ := r
          have hlt := matchWikiAt_length_lt hm
          simp only [List.length_cons] at hlt
          dsimp only
          split <;> rw [ih fuel'' _ rest (by omega) (by omega)]
        | none =>
          dsimp only
          rw [ih fuel'' _ cs' (by omega) (by omega)]

/-! ## Facts used by the termination measure of the BFS loop -/

theorem mem_paths_of_resolve {v : Vault} {t p : String}
    (h : resolve_wikilink v t = some p) : p ∈ v.paths := by
  unfold resolve_wikilink at h
  dsimp only at h
  split at h
  case h_1 r hfind =>
    cases h
    obtain ⟨c, _, hc⟩ := List.exists_of_findSome?_eq_some hfind
    split at hc
    case isTrue hok =>
      have hex : candExists v c = true := by
        have hok' := hok
        simp only [Bool.and_eq_true] at hok'
        exact hok'.1
      unfold candExists at hex
      split at hex
      case h_1 r' htr =>
        rw [htr] at hc
        cases hc
        exact of_decide_eq_true hex
      case h_2 => exact absurd hex (by simp)
    case isFalse => exact absurd hc (by simp)
  case h_2 hfind =>
    have hmem := List.mem_of_find?_eq_some h
    unfold Vault.rglobMd at hmem
    rcases List.mem_map.mp hmem with ⟨e, he, rfl⟩
    exact List.mem_map.mpr ⟨e, (List.mem_filter.mp he).1, rfl⟩

theorem mem_paths_of_processLinks {v : Vault} {links : List WikiLink} {p : String}
    (h : p ∈ processLinks v links) : p ∈ v.paths := by
  unfold processLinks at h
  rcases List.mem_filterMap.mp h with ⟨l, _, hres⟩
  exact mem_paths_of_resolve hres

theorem measureSet_card_mono {v : Vault} {vis vis' : List String}
    {q q' : List (String × Nat)} (hq : ∀ a ∈ q'.map Prod.fst, a ∈ q.map Prod.fst)
    (hv : ∀ a ∈ vis, a ∈ vis') :
    (measureSet v vis' q').card ≤ (measureSet v vis q).card := by
  apply Finset.card_le_card
  intro a ha
  simp only [measureSet, Finset.mem_sdiff, Finset.mem_union, List.mem_toFinset] at *
  exact ⟨ha.1.elim Or.inl fun h => Or.inr (hq a h), fun h => ha.2 (hv a h)⟩

theorem measureSet_card_strict {v : Vault} {vis : List String} {cur : String} {d : Nat}
    {rest q' : List (String × Nat)}
    (hq : ∀ a ∈ q'.map Prod.fst, a ∈ v.paths ∨ a ∈ rest.map Prod.fst)
    (hcur : cur ∉ vis) :
    (measureSet v (cur :: vis) q').card < (measureSet v vis ((cur, d) :: rest)).card := by
  apply Finset.card_lt_card
  rw [Finset.ssubset_def]
  constructor
  · intro a ha
    simp only [measureSet, Finset.mem_sdiff, Finset.mem_union, List.mem_toFinset,
      List.mem_cons, List.map_cons] at ha ⊢
    refine ⟨?_, fun h => ha.2 (Or.inr h)⟩
    rcases ha.1 with h | h
    · exact Or.inl h
    · rcases hq a h with h' | h'
      · exact Or.inl h'
      · exact Or.inr (Or.inr h')
  · intro hsub
    have hcurmem : cur ∈ measureSet v vis ((cur, d) :: rest) := by
      simp only [measureSet, Finset.mem_sdiff, Finset.mem_union, List.mem_toFinset,
        List.map_cons, List.mem_cons]
      exact ⟨Or.inr (Or.inl (by simp)), hcur⟩
    have hbad := hsub hcurmem
    simp only [measureSet, Finset.mem_sdiff, List.mem_toFinset, List.mem_cons] at hbad
    exact hbad.2 (Or.inl (by simp))

theorem processLinks_length_le (v : Vault) (links : List WikiLink) :
    (processLinks v links).length ≤ links.length := by
  unfold processLinks
  exact Nat.le_trans (List.length_filterMap_le _ _) (List.length_filter_le _ _)

theorem links_le_linksTotal {v : Vault} {e : FsEntry} (he : e ∈ v.fs) :
    (extract_wikilinks e.content).length ≤ linksTotal v := by
  unfold linksTotal
  exact List.single_le_sum (fun x _ => Nat.zero_le x) _ (List.mem_map.mpr ⟨e, he, rfl⟩)

theorem readFile_mem {v : Vault} {rel c : String} (h : v.readFile rel = some c) :
    ∃ e ∈ v.fs, e.content = c := by
  unfold Vault.readFile at h
  split at h
  case h_1 e hf =>
    refine ⟨e, List.mem_of_find?_eq_some hf, ?_⟩
    split at h
    · exact absurd h (by simp)
    · split at h
      · cases h; rfl
      · exact absurd h (by simp)
  case h_2 => exact absurd h (by simp)

/-! Step equations of the loop, one per branch of its body. -/

theorem bfsLoopF_nil (o : TagOracle) (v : Vault) (req : GraphAnalysisRequest)
    (fuel : Nat) (nodes : List (String × GraphNode)) (visited : List String)
    (trace : List (String × Nat)) :
    bfsLoopF o v req fuel nodes visited [] trace = some ⟨nodes, visited, trace, []⟩ := by
  cases fuel <;> rfl

theorem bfsLoopF_cap {o : TagOracle} {v : Vault} {req : GraphAnalysisRequest}
    {fuel : Nat} {nodes : List (String × GraphNode)} {visited : List String}
    {cur : String} {d : Nat} {rest trace : List (String × Nat)}
    (hcap : MAX_NODES ≤ nodes.length) :
    bfsLoopF o v req (fuel + 1) nodes visited ((cur, d) :: rest) trace =
      some ⟨nodes, visited, trace, (cur, d) :: rest⟩ := by
  rw [bfsLoopF, if_pos hcap]

theorem bfsLoopF_visited {o : TagOracle} {v : Vault} {req : GraphAnalysisRequest}
    {fuel : Nat} {nodes : List (String × GraphNode)} {visited : List String}
    {cur : String} {d : Nat} {rest trace : List (String × Nat)}
    (hcap : ¬ MAX_NODES ≤ nodes.length) (hv : cur ∈ visited) :
    bfsLoopF o v req (fuel + 1) nodes visited ((cur, d) :: rest) trace =
      bfsLoopF o v req fuel nodes visited rest (trace ++ [(cur, d)]) := by
  rw [bfsLoopF, if_neg hcap]
  simp only [if_pos hv]

theorem bfsLoopF_depth {o : TagOracle} {v : Vault} {req : GraphAnalysisRequest}
    {fuel : Nat} {nodes : List (String × GraphNode)} {visited : List String}
    {cur : String} {d : Nat} {rest trace : List (String × Nat)}
    (hcap : ¬ MAX_NODES ≤ nodes.length) (hv : cur ∉ visited) (hd : req.depth < d) :
    bfsLoopF o v req (fuel + 1) nodes visited ((cur, d) :: rest) trace =
      bfsLoopF o v req fuel nodes visited rest (trace ++ [(cur, d)]) := by
  rw [bfsLoopF, if_neg hcap]
  simp only [if_neg hv, if_pos hd]

theorem bfsLoopF_invalid {o : TagOracle} {v : Vault} {req : GraphAnalysisRequest}
    {fuel : Nat} {nodes : List (String × GraphNode)} {visited : List String}
    {cur : String} {d : Nat} {rest trace : List (String × Nat)}
    (hcap : ¬ MAX_NODES ≤ nodes.length) (hv : cur ∉ visited) (hd : ¬ req.depth < d)
    (hval : validate_vault_path v.root cur = none) :
    bfsLoopF o v req (fuel + 1) nodes visited ((cur, d) :: rest) trace =
      bfsLoopF o v req fuel nodes (cur :: visited) rest (trace ++ [(cur, d)]) := by
  rw [bfsLoopF, if_neg hcap]
  simp only [if_neg hv, if_neg hd, hval]

theorem bfsLoopF_missing {o : TagOracle} {v : Vault} {req : GraphAnalysisRequest}
    {fuel : Nat} {nodes : List (String × GraphNode)} {visited : List String}
    {cur rel : String} {d : Nat} {rest trace : List (String × Nat)}
    (hcap : ¬ MAX_NODES ≤ nodes.length) (hv : cur ∉ visited) (hd : ¬ req.depth < d)
    (hval : validate_vault_path v.root cur = some rel) (hmem : rel ∉ v.paths) :
    bfsLoopF o v req (fuel + 1) nodes visited ((cur, d) :: rest) trace =
      bfsLoopF o v req fuel nodes (cur :: visited) rest (trace ++ [(cur, d)]) := by
  rw [bfsLoopF, if_neg hcap]
  simp only [if_neg hv, if_neg hd, hval, if_neg hmem]

theorem bfsLoopF_unreadable {o : TagOracle} {v : Vault} {req : GraphAnalysisRequest}
    {fuel : Nat} {nodes : List (String × GraphNode)} {visited : List String}
    {cur rel : String} {d : Nat} {rest trace : List (String × Nat)}
    (hcap : ¬ MAX_NODES ≤ nodes.length) (hv : cur ∉ visited) (hd : ¬ req.depth < d)
    (hval : validate_vault_path v.root cur = some rel) (hmem : rel ∈ v.paths)
    (hread : v.readFile rel = none) :
    bfsLoopF o v req (fuel + 1) nodes visited ((cur, d) :: rest) trace =
      bfsLoopF o v req fuel nodes (cur :: visited) rest (trace ++ [(cur, d)]) := by
  rw [bfsLoopF, if_neg hcap]
  simp only [if_neg hv, if_neg hd, hval, if_pos hmem, hread]

theorem bfsLoopF_filtered {o : TagOracle} {v : Vault} {req : GraphAnalysisRequest}
    {fuel : Nat} {nodes : List (String × GraphNode)} {visited : List String}
    {cur rel content : String} {d : Nat} {rest trace : List (String × Nat)}
    (hcap : ¬ MAX_NODES ≤ nodes.length) (hv : cur ∉ visited) (hd : ¬ req.depth < d)
    (hval : validate_vault_path v.root cur = some rel) (hmem : rel ∈ v.paths)
    (hread : v.readFile rel = some content)
    (hf : skipByFilter req.filter_tags (o content).tags = true) :
    bfsLoopF o v req (fuel + 1) nodes visited ((cur, d) :: rest) trace =
      bfsLoopF o v req fuel nodes (cur :: visited) rest (trace ++ [(cur, d)]) := by
  rw [bfsLoopF, if_neg hcap]
  simp only [if_neg hv, if_neg hd, hval, if_pos hmem, hread, hf, if_pos]

theorem bfsLoopF_process {o : TagOracle} {v : Vault} {req : GraphAnalysisRequest}
    {fuel : Nat} {nodes : List (String × GraphNode)} {visited : List String}
    {cur rel content : String} {d : Nat} {rest trace : List (String × Nat)}
    (hcap : ¬ MAX_NODES ≤ nodes.length) (hv : cur ∉ visited) (hd : ¬ req.depth < d)
    (hval : validate_vault_path v.root cur = some rel) (hmem : rel ∈ v.paths)
    (hread : v.readFile rel = some content)
    (hf : skipByFilter req.filter_tags (o content).tags = false) :
    bfsLoopF o v req (fuel + 1) nodes visited ((cur, d) :: rest) trace =
      bfsLoopF o v req fuel (nodes ++ [(cur, mkNode o v req cur rel content d)])
        (cur :: visited)
        (rest ++ (if d < req.depth then
          (processLinks v (extract_wikilinks content)).map fun p => (p, d + 1) else []))
        (trace ++ [(cur, d)]) := by
  rw [bfsLoopF, if_neg hcap]
  simp only [if_neg hv, if_neg hd, hval, if_pos hmem, hread, hf, Bool.false_eq_true,
    mkNode, if_false]

/-- The loop consumes its potential: with fuel above
`|unvisited| * (linksTotal + 1) + |queue|` it cannot run out.  This is the
termination argument for the source's `while` loop. -/
theorem bfsLoopF_isSome (o : TagOracle) (v : Vault) (req : GraphAnalysisRequest) :
    ∀ (fuel : Nat) (nodes : List (String × GraphNode)) (visited : List String)
      (queue : List (String × Nat)) (trace : List (String × Nat)),
      (measureSet v visited queue).card * (linksTotal v + 1) + queue.length < fuel →
      (bfsLoopF o v req fuel nodes visited queue trace).isSome := by
  intro fuel
  induction fuel with
  | zero => intro _ _ _ _ h; omega
  | succ fuel ih =>
    intro nodes visited queue trace hp
    match queue with
    | [] => rw [bfsLoopF_nil]; rfl
    | (cur, d) :: rest =>
      have hmono : ∀ vis', (∀ a ∈ visited, a ∈ vis') →
          (measureSet v vis' rest).card ≤ (measureSet v visited ((cur, d) :: rest)).card :=
        fun vis' hv => measureSet_card_mono
          (by intro a ha; simp only [List.map_cons, List.mem_cons]; exact Or.inr ha) hv
      have hmul : ∀ c c' : Nat, c' ≤ c →
          c' * (linksTotal v + 1) ≤ c * (linksTotal v + 1) :=
        fun c c' h => Nat.mul_le_mul_right _ h
      simp only [List.length_cons] at hp
      by_cases hcap : MAX_NODES ≤ nodes.length
      · rw [bfsLoopF_cap hcap]; rfl
      by_cases hv : cur ∈ visited
      · rw [bfsLoopF_visited hcap hv]
        apply ih
        have h2 := hmul _ _ (hmono visited fun a ha => ha)
        omega
      by_cases hd : req.depth < d
      · rw [bfsLoopF_depth hcap hv hd]
        apply ih
        have h2 := hmul _ _ (hmono visited fun a ha => ha)
        omega
      cases hval : validate_vault_path v.root cur with
      | none =>
        rw [bfsLoopF_invalid hcap hv hd hval]
        apply ih
        have h2 := hmul _ _ (hmono (cur :: visited) fun a ha => List.mem_cons_of_mem _ ha)
        omega
      | some rel =>
        by_cases hmem : rel ∈ v.paths
        · cases hread : v.readFile rel with
          | none =>
            rw [bfsLoopF_unreadable hcap hv hd hval hmem hread]
            apply ih
            have h2 := hmul _ _ (hmono (cur :: visited) fun a ha => List.mem_cons_of_mem _ ha)
            omega
          | some content =>
            by_cases hf : skipByFilter req.filter_tags (o content).tags = true
            · rw [bfsLoopF_filtered hcap hv hd hval hmem hread hf]
              apply ih
              have h2 := hmul _ _ (hmono (cur :: visited) fun a ha => List.mem_cons_of_mem _ ha)
              omega
            · rw [bfsLoopF_process hcap hv hd hval hmem hread (Bool.not_eq_true _ ▸ hf)]
              apply ih
              have hstrict :
                  (measureSet v (cur :: visited)
                      (rest ++ (if d < req.depth then
                        (processLinks v (extract_wikilinks content)).map
                          (fun p => (p, d + 1)) else []))).card <
                    (measureSet v visited ((cur, d) :: rest)).card := by
                apply measureSet_card_strict
                · intro a ha
                  simp only [List.map_append, List.mem_append] at ha
                  rcases ha with ha | ha
                  · exact Or.inr ha
                  · split at ha
                    · rcases List.mem_map.mp ha with ⟨x, hx, rfl⟩
                      rcases List.mem_map.mp hx with ⟨p', hp', rfl⟩
                      exact Or.inl (mem_paths_of_processLinks hp')
                    · simp at ha
                · exact hv
              have hlen : (rest ++ (if d < req.depth then
                  (processLinks v (extract_wikilinks content)).map
                    (fun p => (p, d + 1)) else [])).length ≤
                  rest.length + linksTotal v := by
                rw [List.length_append]
                have hout : ((if d < req.depth then
                    (processLinks v (extract_wikilinks content)).map
                      (fun p => (p, d + 1)) else [])).length ≤ linksTotal v := by
                  split
                  · rw [List.length_map]
                    obtain ⟨e, he, hc⟩ := readFile_mem hread
                    calc (processLinks v (extract_wikilinks content)).length
                        ≤ (extract_wikilinks content).length := processLinks_length_le _ _
                      _ ≤ linksTotal v := by rw [← hc]; exact links_le_linksTotal he
                  · simp
                omega
              have h2 : (measureSet v (cur :: visited)
                  (rest ++ (if d < req.depth then
                    (processLinks v (extract_wikilinks content)).map
                      (fun p => (p, d + 1)) else []))).card * (linksTotal v + 1) +
                    (linksTotal v + 1) ≤
                  (measureSet v visited ((cur, d) :: rest)).card * (linksTotal v + 1) := by
                have hx := Nat.mul_le_mul_right (linksTotal v + 1)
                  (Nat.succ_le_of_lt hstrict)
                rw [Nat.succ_mul] at hx
                exact hx
              omega
        · rw [bfsLoopF_missing hcap hv hd hval hmem]
          apply ih
          have h2 := hmul _ _ (hmono (cur :: visited) fun a ha => List.mem_cons_of_mem _ ha)
          omega

/-- The fuel the service supplies is always sufficient: the source's loop
terminates on every vault. -/
theorem bfsLoop_isSome (o : TagOracle) (v : Vault) (req : GraphAnalysisRequest)
    (queue : List (String × Nat)) (hq : queue.length ≤ 1)
    (nodes : List (String × GraphNode)) (trace : List (String × Nat)) :
    (bfsLoop o v req nodes [] queue trace).isSome := by
  apply bfsLoopF_isSome
  have hcard : (measureSet v [] queue).card ≤ v.paths.length + 1 := by
    have h1 : (measureSet v [] queue).card ≤
        v.paths.toFinset.card + (queue.map Prod.fst).toFinset.card := by
      simp only [measureSet, List.toFinset_nil, Finset.sdiff_empty]
      exact Finset.card_union_le _ _
    have h2 : v.paths.toFinset.card ≤ v.paths.length := v.paths.toFinset_card_le
    have h3 : (queue.map Prod.fst).toFinset.card ≤ queue.length := by
      calc (queue.map Prod.fst).toFinset.card ≤ (queue.map Prod.fst).length :=
            (queue.map Prod.fst).toFinset_card_le
        _ = queue.length := List.length_map _ _
    omega
  have := Nat.mul_le_mul_right (linksTotal v + 1) hcard
  unfold serviceFuel
  omega

/-! ## Loop invariants -/

theorem lookup_append_some {k : String} {x : Nat} {t t' : List (String × Nat)}
    (h : List.lookup k t = some x) : List.lookup k (t ++ t') = some x := by
  rw [List.lookup_append, h]
  rfl

theorem lookup_not_mem {k : String} {t : List (String × Nat)}
    (h : k ∉ t.map Prod.fst) : List.lookup k t = none := by
  induction t with
  | nil => rfl
  | cons a t ih =>
    simp only [List.map_cons, List.mem_cons] at h
    push_neg at h
    have hbeq : (k == a.1) = false := by
      simp only [beq_eq_false_iff_ne, ne_eq]
      exact h.1
    obtain ⟨a1, a2⟩ := a
    show (match k == a1 with | true => some a2 | false => List.lookup k t) = none
    rw [hbeq]
    exact ih h.2

theorem lookup_append_self {k : String} {x : Nat} {t : List (String × Nat)}
    (h : k ∉ t.map Prod.fst) : List.lookup k (t ++ [(k, x)]) = some x := by
  rw [List.lookup_append, lookup_not_mem h]
  simp

/-- What the loop guarantees: the cap holds at exit, existing entries
persist, every entry records its key, a depth within the radius and the depth
of its first dequeue, keys stay distinct, and a non-empty leftover queue
means the cap was reached. -/
theorem bfsLoopF_master (o : TagOracle) (v : Vault) (req : GraphAnalysisRequest) :
    ∀ (fuel : Nat) (nodes : List (String × GraphNode)) (visited : List String)
      (queue trace : List (String × Nat)) (out : LoopOut),
      bfsLoopF o v req fuel nodes visited queue trace = some out →
      LoopInv req nodes visited queue trace →
      out.nodes.length ≤ MAX_NODES ∧
      (∀ kn ∈ nodes, kn ∈ out.nodes) ∧
      (∀ kn ∈ out.nodes, kn.2.path = kn.1 ∧ kn.2.depth ≤ req.depth ∧
        List.lookup kn.1 out.trace = some kn.2.depth) ∧
      (out.nodes.map Prod.fst).Nodup ∧
      (out.rest ≠ [] → MAX_NODES ≤ out.nodes.length) := by
  intro fuel
  induction fuel with
  | zero =>
    intro nodes visited queue trace out hout hinv
    match queue with
    | [] =>
      rw [bfsLoopF_nil] at hout
      cases hout
      exact ⟨hinv.1, fun kn h => h, hinv.2.1, hinv.2.2.1, fun h => absurd rfl h⟩
    | _ :: _ => exact absurd hout (by rw [bfsLoopF]; simp)
  | succ fuel ih =>
    intro nodes visited queue trace out hout hinv
    obtain ⟨hlen, hrec, hnodup, hkeys, htrace, hqd⟩ := hinv
    match queue with
    | [] =>
      rw [bfsLoopF_nil] at hout
      cases hout
      exact ⟨hlen, fun kn h => h, hrec, hnodup, fun h => absurd rfl h⟩
    | (cur, d) :: rest =>
      by_cases hcap : MAX_NODES ≤ nodes.length
      · rw [bfsLoopF_cap hcap] at hout
        cases hout
        exact ⟨hlen, fun kn h => h, hrec, hnodup, fun _ => hcap⟩
      · have hd : ¬ req.depth < d := by
          have := hqd (cur, d) (List.mem_cons_self _ _)
          omega
        have hskip : ∀ vis', (∀ a ∈ visited, a ∈ vis') → cur ∈ vis' →
            bfsLoopF o v req fuel nodes vis' rest (trace ++ [(cur, d)]) = some out →
            out.nodes.length ≤ MAX_NODES ∧
            (∀ kn ∈ nodes, kn ∈ out.nodes) ∧
            (∀ kn ∈ out.nodes, kn.2.path = kn.1 ∧ kn.2.depth ≤ req.depth ∧
              List.lookup kn.1 out.trace = some kn.2.depth) ∧
            (out.nodes.map Prod.fst).Nodup ∧
            (out.rest ≠ [] → MAX_NODES ≤ out.nodes.length) := by
          intro vis' hv hcv hout'
          apply ih _ _ _ _ _ hout'
          refine ⟨hlen, ?_, hnodup, fun k hk => hv _ (hkeys k hk), ?_, ?_⟩
          · intro kn hkn
            obtain ⟨h1, h2, h3⟩ := hrec kn hkn
            exact ⟨h1, h2, lookup_append_some h3⟩
          · intro p hp
            simp only [List.map_append, List.mem_append, List.map_cons, List.map_nil] at hp
            rcases hp with hp | hp
            · exact hv _ (htrace p hp)
            · simp only [List.mem_singleton] at hp
              subst hp
              exact hcv
          · exact fun x hx => hqd x (List.mem_cons_of_mem _ hx)
        by_cases hv : cur ∈ visited
        · rw [bfsLoopF_visited hcap hv] at hout
          exact hskip visited (fun a ha => ha) hv hout
        · cases hval : validate_vault_path v.root cur with
          | none =>
            rw [bfsLoopF_invalid hcap hv hd hval] at hout
            exact hskip (cur :: visited) (fun a ha => List.mem_cons_of_mem _ ha)
              (List.mem_cons_self _ _) hout
          | some rel =>
            by_cases hmem : rel ∈ v.paths
            · cases hread : v.readFile rel with
              | none =>
                rw [bfsLoopF_unreadable hcap hv hd hval hmem hread] at hout
                exact hskip (cur :: visited) (fun a ha => List.mem_cons_of_mem _ ha)
                  (List.mem_cons_self _ _) hout
              | some content =>
                by_cases hf : skipByFilter req.filter_tags (o content).tags = true
                · rw [bfsLoopF_filtered hcap hv hd hval hmem hread hf] at hout
                  exact hskip (cur :: visited) (fun a ha => List.mem_cons_of_mem _ ha)
                    (List.mem_cons_self _ _) hout
                · rw [bfsLoopF_process hcap hv hd hval hmem hread
                    (Bool.not_eq_true _ ▸ hf)] at hout
                  have hcurkeys : cur ∉ nodes.map Prod.fst := fun h => hv (hkeys cur h)
                  have hcurtrace : cur ∉ trace.map Prod.fst := fun h => hv (htrace cur h)
                  have hinv' : LoopInv req (nodes ++ [(cur, mkNode o v req cur rel content d)])
                      (cur :: visited)
                      (rest ++ (if d < req.depth then
                        (processLinks v (extract_wikilinks content)).map fun p => (p, d + 1)
                        else []))
                      (trace ++ [(cur, d)]) := by
                    refine ⟨?_, ?_, ?_, ?_, ?_, ?_⟩
                    · rw [List.length_append, List.length_singleton]
                      omega
                    · intro kn hkn
                      rcases List.mem_append.mp hkn with hkn | hkn
                      · obtain ⟨h1, h2, h3⟩ := hrec kn hkn
                        exact ⟨h1, h2, lookup_append_some h3⟩
                      · simp only [List.mem_singleton] at hkn
                        subst hkn
                        refine ⟨rfl, by have := hqd (cur, d) (List.mem_cons_self _ _); exact this, ?_⟩
                        exact lookup_append_self hcurtrace
                    · rw [List.map_append, List.map_singleton]
                      exact List.Nodup.append hnodup (List.nodup_singleton _)
                        (fun a ha hb => by
                          simp only [List.mem_singleton] at hb
                          subst hb
                          exact hcurkeys ha)
                    · intro k hk
                      simp only [List.map_append, List.map_singleton, List.mem_append,
                        List.mem_singleton] at hk
                      rcases hk with hk | hk
                      · exact List.mem_cons_of_mem _ (hkeys k hk)
                      · subst hk
                        exact List.mem_cons_self _ _
                    · intro p hp
                      simp only [List.map_append, List.mem_append, List.map_cons,
                        List.map_nil, List.mem_singleton] at hp
                      rcases hp with hp | hp
                      · exact List.mem_cons_of_mem _ (htrace p hp)
                      · subst hp
                        exact List.mem_cons_self _ _
                    · intro x hx
                      rcases List.mem_append.mp hx with hx | hx
                      · exact hqd x (List.mem_cons_of_mem _ hx)
                      · split at hx
                        next hlt =>
                          rcases List.mem_map.mp hx with ⟨p, hp, rfl⟩
                          show d + 1 ≤ req.depth
                          omega
                        next => simp at hx
                  have hmaster := ih _ _ _ _ _ hout hinv'
                  exact ⟨hmaster.1,
                    fun kn h => hmaster.2.1 kn (List.mem_append_left _ h),
                    hmaster.2.2.1, hmaster.2.2.2.1, hmaster.2.2.2.2⟩
            · rw [bfsLoopF_missing hcap hv hd hval hmem] at hout
              exact hskip (cur :: visited) (fun a ha => List.mem_cons_of_mem _ ha)
                (List.mem_cons_self _ _) hout

/-! ## Facts about the second pass -/

theorem mem_inboundFor_iff {nodes : List (String × GraphNode)} {k x : String} :
    x ∈ inboundFor nodes k ↔ ∃ an ∈ nodes, an.2.path = x ∧ k ∈ an.2.outbound_links := by
  unfold inboundFor
  rw [List.mem_flatten]
  constructor
  · rintro ⟨l, hl, hx⟩
    rcases List.mem_map.mp hl with ⟨an, han, rfl⟩
    rcases List.mem_filterMap.mp hx with ⟨p, hp, hpx⟩
    split at hpx
    · cases hpx
      rename_i hpk
      subst hpk
      exact ⟨an, han, rfl, hp⟩
    · exact absurd hpx (by simp)
  · rintro ⟨an, han, hpath, hout⟩
    refine ⟨an.2.outbound_links.filterMap fun p => if p = k then some an.2.path else none,
      List.mem_map.mpr ⟨an, han, rfl⟩, ?_⟩
    exact List.mem_filterMap.mpr ⟨k, hout, by rw [if_pos rfl, hpath]⟩

theorem mem_buildInbound_iff {nodes : List (String × GraphNode)} {bn : String × GraphNode} :
    bn ∈ buildInbound nodes ↔
      ∃ kn ∈ nodes, bn = (kn.1, { kn.2 with inbound_links := inboundFor nodes kn.1 }) := by
  unfold buildInbound
  rw [List.mem_map]
  constructor
  · rintro ⟨kn, hkn, rfl⟩
    exact ⟨kn, hkn, rfl⟩
  · rintro ⟨kn, hkn, rfl⟩
    exact ⟨kn, hkn, rfl⟩

theorem buildInbound_length (nodes : List (String × GraphNode)) :
    (buildInbound nodes).length = nodes.length := List.length_map _ _

/-- The response of a successful analysis, in terms of the loop output. -/
theorem analyzeWithTrace_ok {o : TagOracle} {v : Vault} {req : GraphAnalysisRequest}
    {resp : GraphAnalysisResponse} {tr rest : List (String × Nat)}
    (h : analyzeWithTrace o v req = Except.ok (resp, tr, rest)) :
    ∃ out : LoopOut,
      bfsLoop o v req [] [] [(req.center_note, 0)] [] = some out ∧
      resp.nodes = (buildInbound out.nodes).map (·.2) ∧
      resp.total_nodes = out.nodes.length ∧
      resp.truncated = decide (MAX_NODES ≤ out.nodes.length) ∧
      resp.center_note = req.center_note ∧
      tr = out.trace ∧ rest = out.rest := by
  unfold analyzeWithTrace at h
  split at h
  · exact absurd h (by simp)
  · split at h
    · split at h
      case h_1 out hloop =>
        refine ⟨out, hloop, ?_⟩
        injection h with h
        injection h with h1 h2
        injection h2 with h2 h3
        subst h1 h2 h3
        refine ⟨rfl, by simp [List.length_map, buildInbound_length], ?_, rfl, rfl, rfl⟩
        simp only [List.length_map, buildInbound_length]
      case h_2 => exact absurd h (by simp)
    · exact absurd h (by simp)

/-- A per-node failure is absorbed as a pure skip: the node is marked
visited, nothing is recorded for it, none of its links are explored, and
the loop simply continues with the rest of the queue. -/
theorem bfsLoopF_skip_fail {o : TagOracle} {v : Vault} {req : GraphAnalysisRequest}
    {fuel : Nat} {nodes : List (String × GraphNode)} {visited : List String}
    {cur : String} {d : Nat} {rest trace : List (String × Nat)}
    (hcap : ¬ MAX_NODES ≤ nodes.length) (hv : cur ∉ visited) (hd : ¬ req.depth < d)
    (hfail : noteReadFails v cur) :
    bfsLoopF o v req (fuel + 1) nodes visited ((cur, d) :: rest) trace =
      bfsLoopF o v req fuel nodes (cur :: visited) rest (trace ++ [(cur, d)]) := by
  unfold noteReadFails at hfail
  split at hfail
  case h_1 hval => exact bfsLoopF_invalid hcap hv hd hval
  case h_2 rel hval =>
    rcases hfail with hmem | hread
    · exact bfsLoopF_missing hcap hv hd hval hmem
    · by_cases hmem : rel ∈ v.paths
      · exact bfsLoopF_unreadable hcap hv hd hval hmem hread
      · exact bfsLoopF_missing hcap hv hd hval hmem

theorem initial_LoopInv (req : GraphAnalysisRequest) :
    LoopInv req [] [] [(req.center_note, 0)] [] := by
  refine ⟨by simp [MAX_NODES], by simp, by simp, by simp, by simp, ?_⟩
  intro x hx
  simp only [List.mem_singleton] at hx
  subst hx
  exact Nat.zero_le _

theorem analyze_ok_iff {o : TagOracle} {v : Vault} {req : GraphAnalysisRequest}
    {resp : GraphAnalysisResponse} :
    analyze_graph_service o v req = Except.ok resp ↔
      ∃ tr rest, analyzeWithTrace o v req = Except.ok (resp, tr, rest) := by
  unfold analyze_graph_service
  cases h : analyzeWithTrace o v req with
  | ok x =>
    obtain ⟨r, tr, rest⟩ := x
    simp only [Except.map]
    constructor
    · intro he
      injection he with he
      subst he
      exact ⟨tr, rest, rfl⟩
    · rintro ⟨tr', rest', he⟩
      injection he with he
      injection he with h1 h2
      subst h1
      rfl
  | error e =>
    simp only [Except.map]
    constructor
    · intro he; exact absurd he (by simp)
    · rintro ⟨_, _, he⟩; exact absurd he (by simp)

/-- When the center note is found, the analysis always completes with a
response (the loop fuel is sufficient). -/
theorem found_implies_ok (o : TagOracle) (v : Vault) (req : GraphAnalysisRequest)
    (hfound : centerNoteFound v req = true) :
    ∃ resp, analyze_graph_service o v req = Except.ok resp := by
  unfold centerNoteFound at hfound
  split at hfound
  case h_2 => exact absurd hfound (by simp)
  case h_1 rel hval =>
    have hmem : rel ∈ v.paths := of_decide_eq_true hfound
    have hsome := bfsLoop_isSome o v req [(req.center_note, 0)] (by simp) [] []
    unfold analyze_graph_service analyzeWithTrace
    rw [hval]
    dsimp only
    rw [if_pos hmem]
    cases hloop : bfsLoop o v req [] [] [(req.center_note, 0)] [] with
    | some out => exact ⟨_, rfl⟩
    | none => rw [hloop] at hsome; exact absurd hsome (by simp)

theorem key_inj {l : List (String × GraphNode)} (h : (l.map Prod.fst).Nodup)
    {a b : String × GraphNode} (ha : a ∈ l) (hb : b ∈ l) (hk : a.1 = b.1) : a = b :=
  List.inj_on_of_nodup_map h ha hb hk

/-! ## The claims -/

/-- C1: for every vault, every tag oracle and every requested depth in
{1,2,3}, `analyze_graph_service` terminates — whenever the center-note
precondition holds it returns a response (the loop fuel never runs out,
`bfsLoop_isSome`) — and every returned response has `total_nodes` at most
`MAX_NODES` (100). -/
theorem analyze_graph_service_terminates_and_caps (o : TagOracle) (v : Vault)
    (req : GraphAnalysisRequest) (hd : 1 ≤ req.depth ∧ req.depth ≤ 3) :
    (centerNoteFound v req = true → ∃ resp, analyze_graph_service o v req = Except.ok resp) ∧
    ∀ resp, analyze_graph_service o v req = Except.ok resp → resp.total_nodes ≤ MAX_NODES := by
  refine ⟨found_implies_ok o v req, ?_⟩
  intro resp h
  obtain ⟨tr, rest, hok⟩ := analyze_ok_iff.mp h
  obtain ⟨out, hloop, hnodes, htot, htrunc, hcenter, htr, hrest⟩ := analyzeWithTrace_ok hok
  have hm := bfsLoopF_master o v req _ _ _ _ _ _ hloop (initial_LoopInv req)
  rw [htot]
  exact hm.1

theorem analyze_graph_service_terminates_and_caps_witness :
    ∃ resp, analyze_graph_service oracle0 vaultA reqA = Except.ok resp ∧
      resp.total_nodes ≤ MAX_NODES := by
  obtain ⟨resp, hresp⟩ :=
    (analyze_graph_service_terminates_and_caps oracle0 vaultA reqA (by decide)).1 (by rfl)
  exact ⟨resp, hresp,
    (analyze_graph_service_terminates_and_caps oracle0 vaultA reqA (by decide)).2 resp hresp⟩

/-- C2: the call raises a hard failure exactly when the center-note
precondition fails (the center note does not validate inside the vault or
does not exist); every per-node failure during traversal is absorbed as a
pure skip: the failing path is marked visited, no node is created for it,
none of its links are explored, and the loop continues with the remaining
queue, so the call still returns a response. -/
theorem analyze_error_iff_center_missing (o : TagOracle) (v : Vault)
    (req : GraphAnalysisRequest) :
    ((∃ e, analyze_graph_service o v req = Except.error e) ↔ centerNoteFound v req = false) ∧
    (∀ (fuel : Nat) (nodes : List (String × GraphNode)) (visited : List String)
       (cur : String) (d : Nat) (rest trace : List (String × Nat)),
      ¬ MAX_NODES ≤ nodes.length → cur ∉ visited → ¬ req.depth < d →
      noteReadFails v cur →
      bfsLoopF o v req (fuel + 1) nodes visited ((cur, d) :: rest) trace =
        bfsLoopF o v req fuel nodes (cur :: visited) rest (trace ++ [(cur, d)])) := by
  refine ⟨⟨?_, ?_⟩,
    fun _ _ _ _ _ _ _ hcap hv hdd hfail => bfsLoopF_skip_fail hcap hv hdd hfail⟩
  · rintro ⟨e, he⟩
    cases hcf : centerNoteFound v req with
    | false => rfl
    | true =>
      obtain ⟨resp, hok⟩ := found_implies_ok o v req hcf
      rw [he] at hok
      exact absurd hok (by simp)
  · intro hfalse
    unfold centerNoteFound at hfalse
    unfold analyze_graph_service analyzeWithTrace
    split at hfalse
    case h_1 rel hval =>
      have hmem : rel ∉ v.paths := of_decide_eq_false hfalse
      rw [hval]
      dsimp only
      rw [if_neg hmem]
      exact ⟨_, rfl⟩
    case h_2 hval =>
      rw [hval]
      exact ⟨_, rfl⟩

theorem analyze_error_iff_center_missing_witness :
    ∃ e, analyze_graph_service oracle0 vaultEmpty reqA = Except.error e :=
  (analyze_error_iff_center_missing oracle0 vaultEmpty reqA).1.mpr (by rfl)

/-- C3: in every returned response each note path occurs at most once among
the nodes (first discovery wins, even when a note is reachable several ways),
and each node's `depth` equals the depth at which that path was first
dequeued from the FIFO queue (the first entry for the path in the dequeue
trace), which never exceeds the requested depth. -/
theorem nodes_unique_first_dequeue_depth (o : TagOracle) (v : Vault)
    (req : GraphAnalysisRequest) (resp : GraphAnalysisResponse)
    (tr rest : List (String × Nat))
    (h : analyzeWithTrace o v req = Except.ok (resp, tr, rest)) :
    (resp.nodes.Pairwise fun a b => a.path ≠ b.path) ∧
    ∀ n ∈ resp.nodes, n.depth ≤ req.depth ∧ List.lookup n.path tr = some n.depth := by
  obtain ⟨out, hloop, hnodes, htot, htrunc, hcenter, htr, hrest⟩ := analyzeWithTrace_ok h
  have hm := bfsLoopF_master o v req _ _ _ _ _ _ hloop (initial_LoopInv req)
  obtain ⟨hcap, hmono, hrec, hnodup, hr⟩ := hm
  subst htr
  constructor
  · rw [hnodes]
    unfold buildInbound
    rw [List.map_map, List.pairwise_map]
    have hkeys : out.nodes.Pairwise fun a b => a.1 ≠ b.1 := by
      have hh := hnodup
      rw [List.Nodup, List.pairwise_map] at hh
      exact hh
    apply List.Pairwise.imp_of_mem ?_ hkeys
    intro a b ha hb hne
    show ¬ ({ a.2 with inbound_links := inboundFor out.nodes a.1 } : GraphNode).path =
      ({ b.2 with inbound_links := inboundFor out.nodes b.1 } : GraphNode).path
    show ¬ a.2.path = b.2.path
    rw [(hrec a ha).1, (hrec b hb).1]
    exact hne
  · intro n hn
    rw [hnodes] at hn
    rcases List.mem_map.mp hn with ⟨bn, hbn, rfl⟩
    rcases mem_buildInbound_iff.mp hbn with ⟨kn, hkn, rfl⟩
    obtain ⟨h1, h2, h3⟩ := hrec kn hkn
    exact ⟨h2, by
      show List.lookup kn.2.path out.trace = some kn.2.depth
      rw [h1]
      exact h3⟩

theorem nodes_unique_first_dequeue_depth_witness :
    (respA.nodes.Pairwise fun a b => a.path ≠ b.path) ∧
    ∀ n ∈ respA.nodes, n.depth ≤ reqA.depth ∧ List.lookup n.path trA = some n.depth :=
  nodes_unique_first_dequeue_depth oracle0 vaultA reqA respA trA restA rfl

/-- C4: for any two included nodes `A`, `B`: `B.path ∈ A.outbound_links` iff
`A.path ∈ B.inbound_links`; `inbound_links` is derived in a second pass over
the included nodes only, with no transitive closure. -/
theorem inbound_outbound_consistency (o : TagOracle) (v : Vault)
    (req : GraphAnalysisRequest) (resp : GraphAnalysisResponse)
    (h : analyze_graph_service o v req = Except.ok resp) :
    ∀ A ∈ resp.nodes, ∀ B ∈ resp.nodes,
      (B.path ∈ A.outbound_links ↔ A.path ∈ B.inbound_links) := by
  obtain ⟨tr, rest, hok⟩ := analyze_ok_iff.mp h
  obtain ⟨out, hloop, hnodes, _, _, _, _, _⟩ := analyzeWithTrace_ok hok
  have hm := bfsLoopF_master o v req _ _ _ _ _ _ hloop (initial_LoopInv req)
  obtain ⟨_, _, hrec, hnodup, _⟩ := hm
  intro A hA B hB
  rw [hnodes] at hA hB
  rcases List.mem_map.mp hA with ⟨ba, hba, rfl⟩
  rcases mem_buildInbound_iff.mp hba with ⟨ka, hka, rfl⟩
  rcases List.mem_map.mp hB with ⟨bb, hbb, rfl⟩
  rcases mem_buildInbound_iff.mp hbb with ⟨kb, hkb, rfl⟩
  show kb.2.path ∈ ka.2.outbound_links ↔ ka.2.path ∈ inboundFor out.nodes kb.1
  constructor
  · intro hout
    apply mem_inboundFor_iff.mpr
    refine ⟨ka, hka, rfl, ?_⟩
    rwa [(hrec kb hkb).1] at hout
  · intro hin
    rcases mem_inboundFor_iff.mp hin with ⟨an, han, hpath, hout⟩
    have hkey : an.1 = ka.1 := by
      rw [← (hrec an han).1, ← (hrec ka hka).1]
      exact hpath
    have hak := key_inj hnodup han hka hkey
    rw [(hrec kb hkb).1]
    rw [← hak]
    exact hout

theorem inbound_outbound_consistency_witness :
    ∃ A ∈ respA.nodes, ∃ B ∈ respA.nodes,
      (B.path ∈ A.outbound_links ↔ A.path ∈ B.inbound_links) := by
  have h := inbound_outbound_consistency oracle0 vaultA reqA respA rfl
  have hA : respA.nodes.headD node0 ∈ respA.nodes := by decide
  exact ⟨_, hA, _, hA, h _ hA _ hA⟩

set_option maxRecDepth 1000000

set_option maxHeartbeats 8000000

/-- C5 counterexample: in the 100-note star vault at depth 1 the loop exits
with an empty leftover queue — every enqueued node was dequeued and explored,
the frontier was exhausted — yet `truncated` is `true` (and `total_nodes` is
exactly 100), contradicting "truncated is true iff the cap was hit before
the frontier was exhausted; when traversal fully explores every reachable
enqueued node, truncated is false". -/
theorem truncated_true_with_frontier_exhausted :
    (analyzeWithTrace oracle0 starVault starReq).toOption.map
      (fun x => (x.1.truncated, x.1.total_nodes, x.2.2)) = some (true, 100, []) := rfl

/-- C5 amended: `truncated` is true iff the node count reached the cap
(`total_nodes ≥ MAX_NODES`); a false flag guarantees the frontier was
exhausted (nothing was cut off), but the flag can also be true when the
frontier was exhausted with exactly 100 reachable notes. -/
theorem truncated_iff_cap_reached (o : TagOracle) (v : Vault)
    (req : GraphAnalysisRequest) (resp : GraphAnalysisResponse)
    (tr rest : List (String × Nat))
    (h : analyzeWithTrace o v req = Except.ok (resp, tr, rest)) :
    (resp.truncated = true ↔ MAX_NODES ≤ resp.total_nodes) ∧
    (resp.truncated = false → rest = []) := by
  obtain ⟨out, hloop, hnodes, htot, htrunc, hcenter, htr, hrest⟩ := analyzeWithTrace_ok h
  have hm := bfsLoopF_master o v req _ _ _ _ _ _ hloop (initial_LoopInv req)
  subst hrest
  constructor
  · rw [htrunc, htot]
    constructor
    · intro hd; exact of_decide_eq_true hd
    · intro hle; exact decide_eq_true hle
  · intro hfalse
    rw [htrunc] at hfalse
    have hnle : ¬ MAX_NODES ≤ out.nodes.length := of_decide_eq_false hfalse
    by_contra hne
    exact hnle (hm.2.2.2.2 hne)

theorem truncated_iff_cap_reached_witness :
    ((respA.truncated = true ↔ MAX_NODES ≤ respA.total_nodes) ∧
     (respA.truncated = false → restA = [])) :=
  truncated_iff_cap_reached oracle0 vaultA reqA respA trA restA rfl

/-- C6 counterexample: a center note that exists and is readable, but has no
tag in a non-empty `filter_tags`, is excluded from the result: the node set
is empty and contains no node for the center, contradicting "the returned
node set contains a node whose path is center_note and whose depth is 0
(always present unless the center note itself is unreadable)". -/
theorem center_excluded_by_filter :
    (vaultC6.readFile "c.md").isSome = true ∧
    (analyze_graph_service oracle0 vaultC6 reqC6).toOption.map (fun r => r.nodes) =
      some [] := ⟨rfl, rfl⟩

/-- C6 amended: for every request whose center note exists and is readable
AND is not excluded by the tag filter (`filter_tags` empty or sharing a tag
with the center note), the returned node set contains a node whose path is
`center_note` and whose depth is 0. -/
theorem center_node_present (o : TagOracle) (v : Vault) (req : GraphAnalysisRequest)
    (rel content : String) (resp : GraphAnalysisResponse)
    (hval : validate_vault_path v.root req.center_note = some rel)
    (hmem : rel ∈ v.paths)
    (hread : v.readFile rel = some content)
    (hfilter : skipByFilter req.filter_tags (o content).tags = false)
    (h : analyze_graph_service o v req = Except.ok resp) :
    ∃ n ∈ resp.nodes, n.path = req.center_note ∧ n.depth = 0 := by
  obtain ⟨tr, rest, hok⟩ := analyze_ok_iff.mp h
  obtain ⟨out, hloop, hnodes, _, _, _, _, _⟩ := analyzeWithTrace_ok hok
  unfold bfsLoop at hloop
  have hfuel : serviceFuel v = ((v.paths.length + 1) * (linksTotal v + 1) + 1) + 1 := rfl
  rw [hfuel] at hloop
  rw [bfsLoopF_process (by decide) (by simp) (by omega) hval hmem hread hfilter] at hloop
  have hinv1 : LoopInv req ([] ++ [(req.center_note, mkNode o v req req.center_note rel content 0)])
      (req.center_note :: [])
      ([] ++ (if 0 < req.depth then
        (processLinks v (extract_wikilinks content)).map fun p => (p, 0 + 1) else []))
      ([] ++ [(req.center_note, 0)]) := by
    refine ⟨by simp [MAX_NODES], ?_, by simp, by simp, by simp, ?_⟩
    · intro kn hkn
      simp only [List.nil_append, List.mem_singleton] at hkn
      subst hkn
      exact ⟨rfl, Nat.zero_le _, by simp [mkNode]⟩
    · intro x hx
      simp only [List.nil_append] at hx
      split at hx
      next hpos =>
        rcases List.mem_map.mp hx with ⟨p, hp, rfl⟩
        show 0 + 1 ≤ req.depth
        omega
      next => simp at hx
  have hm := bfsLoopF_master o v req _ _ _ _ _ _ hloop hinv1
  have hcmem : (req.center_note, mkNode o v req req.center_note rel content 0) ∈ out.nodes :=
    hm.2.1 _ (by simp)
  refine ⟨{ mkNode o v req req.center_note rel content 0 with
      inbound_links := inboundFor out.nodes req.center_note }, ?_, rfl, rfl⟩
  rw [hnodes]
  exact List.mem_map.mpr ⟨_, mem_buildInbound_iff.mpr ⟨_, hcmem, rfl⟩, rfl⟩

theorem center_node_present_witness :
    ∃ n ∈ respA.nodes, n.path = reqA.center_note ∧ n.depth = 0 :=
  center_node_present oracle0 vaultA reqA "center.md"
    "Links to [[note1]] and [[note2]]" respA rfl (by decide) rfl rfl rfl

/-- C7 (code bug, evaluation at the failing input): a note whose whole
content is the embed `![[b#Sec]]` (embed with a heading anchor).
`extract_wikilinks` emits, besides the embed, a second link with
`is_embed = false` for the same syntax — `HEADING_WIKILINK_PATTERN` does not
check for a preceding `!` — so the graph service records an outbound edge to
`b.md` and enqueues it, although the claim (and the `WikiLink.is_embed`
documentation) requires embeds never to become graph edges. -/
theorem embed_with_heading_creates_edge :
    (extract_wikilinks "![[b#Sec]]").map (fun l => (l.target, l.is_embed, l.heading)) =
      [("b#Sec", true, none), ("b", false, some "Sec")] ∧
    (analyze_graph_service oracle0 vaultC7 reqC7).toOption.map
      (fun r => r.nodes.map fun n => (n.path, n.outbound_links, n.depth)) =
      some [("a.md", ["b.md"], 0), ("b.md", [], 1)] := ⟨rfl, rfl⟩

/-- C8 counterexample: target `"a.mdb"` in a vault containing only `ab.md`.
No direct candidate exists; the source's fallback compares the stem against
`"a.mdb".replace(".md", "") = "ab"` and resolves to `ab.md`, while the
resolution procedure described by the claim (stem equal to the raw last
segment `"a.mdb"`) finds nothing. -/
theorem resolve_fallback_strips_md_occurrences :
    resolve_wikilink vaultC8 "a.mdb" = some "ab.md" ∧
    resolve_wikilink_claim vaultC8 "a.mdb" = none := ⟨rfl, rfl⟩

theorem toRel_isSome_of_candExists {v : Vault} {c : String}
    (h : candExists v c = true) : (toRel v.root c).isSome := by
  unfold candExists at h
  split at h
  case h_1 r htr => rw [htr]; rfl
  case h_2 => exact absurd h (by simp)

theorem findSome_ite_eq (l : List String) (f : String → Bool) (g : String → Option String)
    (hg : ∀ c, f c = true → (g c).isSome) :
    (l.findSome? fun c => if f c then g c else none) = (l.find? f).bind g := by
  induction l with
  | nil => rfl
  | cons c l ih =>
    by_cases hf : f c
    · have hs : (g c).isSome := hg c hf
      rw [List.findSome?_cons_of_isSome _ (by simp only [if_pos hf]; exact hs)]
      rw [List.find?_cons_of_pos _ hf]
      simp only [if_pos hf, Option.some_bind]
    · rw [List.findSome?_cons_of_isNone _ (by simp only [if_neg hf]; rfl)]
      rw [List.find?_cons_of_neg _ hf]
      exact ih

theorem find?_filter_eq (l : List String) (p q : String → Bool) :
    (l.filter q).find? p = l.find? fun a => p a && q a := by
  induction l with
  | nil => rfl
  | cons a l ih =>
    by_cases hq : q a
    · rw [List.filter_cons_of_pos hq]
      by_cases hp : p a
      · rw [List.find?_cons_of_pos _ hp, List.find?_cons_of_pos _ (by rw [hp, hq]; rfl)]
      · rw [List.find?_cons_of_neg _ hp,
          List.find?_cons_of_neg _ (by simp [hp]), ih]
    · rw [List.filter_cons_of_neg hq]
      rw [List.find?_cons_of_neg _ (by simp [hq]), ih]

/-- C8 amended: `_resolve_wikilink` tries, in order and with the first match
winning, `{target}.md`, `{target}` verbatim and — when the last path segment
of the target is nonempty — `{last segment}.md`; a candidate matches when it
exists and passes the path-allow policy; otherwise the vault scan returns
the first `*.md` match passing the policy whose filename-without-extension
equals the target's last segment with every `".md"` occurrence removed;
`none` when nothing resolves. -/
theorem resolve_wikilink_follows_amended_order (v : Vault) (t : String) :
    resolve_wikilink v t = resolve_wikilink_amended v t := by
  unfold resolve_wikilink resolve_wikilink_amended
  dsimp only
  rw [findSome_ite_eq _ _ _ (fun c hc => by
    simp only [Bool.and_eq_true] at hc
    exact toRel_isSome_of_candExists hc.1)]
  rw [find?_filter_eq]
  cases hfind : ([t ++ ".md", t] ++ (if lastSeg t ≠ "" then [lastSeg t ++ ".md"] else [])).find?
      (fun c => candExists v c && is_path_allowed (joinAbs v.root c)) with
  | some c =>
    have hf := List.find?_some hfind
    simp only [Bool.and_eq_true] at hf
    obtain ⟨r, hr⟩ := Option.isSome_iff_exists.mp (toRel_isSome_of_candExists hf.1)
    simp only [Option.some_bind, hr]
  | none => rfl

/-- C9 counterexample: a note `a.md` containing `[[b]] [[b]]` puts `a.md`
twice into `b.md`'s `inbound_links` — one entry per link occurrence — so
`inbound_links` is not duplicate-free and is not a set. -/
theorem inbound_links_contain_duplicates :
    (analyze_graph_service oracle0 vaultC9 reqC9).toOption.map
      (fun r => r.nodes.map fun n => (n.path, n.inbound_links)) =
      some [("a.md", []), ("b.md", ["a.md", "a.md"])] ∧
    ¬ (["a.md", "a.md"] : List String).Nodup := ⟨rfl, by decide⟩

/-- C9 amended: every entry of a node's `inbound_links` is the path of an
included node whose `outbound_links` contain this node's path; entries may
repeat (one per link occurrence) and a self-linking node lists itself. -/
theorem inbound_entries_backed_by_nodes (o : TagOracle) (v : Vault)
    (req : GraphAnalysisRequest) (resp : GraphAnalysisResponse)
    (h : analyze_graph_service o v req = Except.ok resp) :
    ∀ B ∈ resp.nodes, ∀ p ∈ B.inbound_links,
      ∃ A ∈ resp.nodes, A.path = p ∧ B.path ∈ A.outbound_links := by
  obtain ⟨tr, rest, hok⟩ := analyze_ok_iff.mp h
  obtain ⟨out, hloop, hnodes, _, _, _, _, _⟩ := analyzeWithTrace_ok hok
  have hm := bfsLoopF_master o v req _ _ _ _ _ _ hloop (initial_LoopInv req)
  obtain ⟨_, _, hrec, _, _⟩ := hm
  intro B hB p hp
  rw [hnodes] at hB
  rcases List.mem_map.mp hB with ⟨bb, hbb, rfl⟩
  rcases mem_buildInbound_iff.mp hbb with ⟨kb, hkb, rfl⟩
  rcases mem_inboundFor_iff.mp hp with ⟨an, han, hpath, hout⟩
  refine ⟨{ an.2 with inbound_links := inboundFor out.nodes an.1 }, ?_, hpath, ?_⟩
  · rw [hnodes]
    exact List.mem_map.mpr ⟨_, mem_buildInbound_iff.mpr ⟨an, han, rfl⟩, rfl⟩
  · show kb.2.path ∈ an.2.outbound_links
    rw [(hrec kb hkb).1]
    exact hout

theorem inbound_entries_backed_by_nodes_witness :
    ∃ B ∈ respC9.nodes, ∃ p ∈ B.inbound_links,
      ∃ A ∈ respC9.nodes, A.path = p ∧ B.path ∈ A.outbound_links := by
  have h := inbound_entries_backed_by_nodes oracle0 vaultC9 reqC9 respC9 rfl
  have hB : respC9.nodes.getLastD node0 ∈ respC9.nodes := by decide
  have hp : "a.md" ∈ (respC9.nodes.getLastD node0).inbound_links := by decide
  exact ⟨_, hB, _, hp, h _ hB _ hp⟩

/-- C10: when the center note exists and is readable but a non-empty tag
filter excludes it (none of its tags is a filter tag), the service succeeds
without raising and returns the empty response: no nodes, `total_nodes = 0`,
`depth_reached = 0`, `truncated = false`. -/
theorem filtered_center_yields_empty_response (o : TagOracle) (v : Vault)
    (req : GraphAnalysisRequest) (rel content : String) (l : List String)
    (hval : validate_vault_path v.root req.center_note = some rel)
    (hmem : rel ∈ v.paths)
    (hread : v.readFile rel = some content)
    (hl : req.filter_tags = some l) (hne : l ≠ [])
    (hdisj : ∀ t ∈ (o content).tags, t ∉ l) :
    analyze_graph_service o v req =
      Except.ok { center_note := req.center_note, nodes := [], total_nodes := 0,
                  depth_reached := 0, truncated := false } := by
  have hskip : skipByFilter req.filter_tags (o content).tags = true := by
    unfold skipByFilter
    rw [hl]
    have h1 : l.isEmpty = false := by
      cases l
      · exact absurd rfl hne
      · rfl
    have h2 : (l.any fun t => decide (t ∈ (o content).tags)) = false := by
      rw [List.any_eq_false]
      intro t ht
      simp only [decide_eq_true_eq]
      intro hmem'
      exact hdisj t hmem' ht
    show (!l.isEmpty && !l.any fun t => decide (t ∈ (o content).tags)) = true
    rw [h1, h2]
    rfl
  apply analyze_ok_iff.mpr
  refine ⟨[] ++ [(req.center_note, 0)], [], ?_⟩
  unfold analyzeWithTrace
  rw [hval]
  dsimp only
  rw [if_pos hmem]
  unfold bfsLoop
  have hfuel : serviceFuel v = ((v.paths.length + 1) * (linksTotal v + 1) + 1) + 1 := rfl
  rw [hfuel]
  rw [bfsLoopF_filtered (by decide) (by simp) (by omega) hval hmem hread hskip]
  rw [bfsLoopF_nil]
  rfl

theorem filtered_center_yields_empty_response_witness :
    analyze_graph_service oracle0 vaultC6 reqC6 =
      Except.ok { center_note := reqC6.center_note, nodes := [], total_nodes := 0,
                  depth_reached := 0, truncated := false } :=
  filtered_center_yields_empty_response oracle0 vaultC6 reqC6 "c.md" "" ["t"]
    rfl (by decide) rfl rfl (by decide) (by decide)

end ObsidianAgent
